import Mathlib

/-!
Verification of the WD word-counter text-analysis engine
(`src/ui_mainwindow.py`, class `WDMainWindow`) against its specification.

The Python fallback analyzer is embedded shallowly:
* text buffers are `List Char` (the ASCII fragment of Python `str`);
* `re.findall(r'\b\w+\b', s)` is the list of maximal runs of word
  characters (alphanumeric or underscore), since `\w+` is greedy and the
  `\b` anchors hold exactly at the ends of maximal `\w`-runs;
* `re.findall(r'\b[a-zA-Z]+\b', s)` keeps exactly those maximal
  `\w`-runs that consist of letters only (a run containing a digit or an
  underscore admits no interior word boundary, so no sub-run matches);
* `collections.Counter(words)` is the association list pairing each word,
  in first-occurrence order (CPython dicts preserve insertion order), with
  its number of occurrences; `Counter.get(w, 0)` is `lookup` with default;
* `Counter.most_common(n)` is `heapq.nlargest(n, items, key=count)`,
  which CPython implements by decorating each item with its iteration
  index and sorting the decorated pairs, i.e. it sorts by the total order
  "greater count first, earlier first occurrence first on ties" and takes
  the first `n` (an `n ≤ 0` yields `[]`);
* Python `//` on `int` is `Int.fdiv` (floor division), `l[:k]` / `l[k:]`
  are clamped take/drop that count from the right for negative `k`;
* a `ZeroDivisionError` is modelled by `Option.none`;
* float arithmetic (`avg_word_length`, densities, reading time) is
  modelled exactly over `ℚ`.
-/

namespace WD

/-- A word character for `\w`: alphanumeric or underscore (ASCII fragment). -/
def isWordChar (c : Char) : Bool :=
  c.isAlphanum || c == '_'

/-- Sentence-terminating punctuation, the class `[.!?]`. -/
def isSentChar (c : Char) : Bool :=
  c == '.' || c == '!' || c == '?'

/-- Prepend a character to the first segment of a split result. -/
def consHead (c : Char) : List (List Char) → List (List Char)
  | [] => [[c]]
  | s :: ss => (c :: s) :: ss

/-- Left-to-right scanner for maximal runs of characters satisfying `p`;
`cur` is the current run, accumulated in reverse. -/
def tokenizeAux (p : Char → Bool) : List Char → List Char → List (List Char)
  | cur, [] => if cur.isEmpty then [] else [cur.reverse]
  | cur, c :: cs =>
    if p c then tokenizeAux p (c :: cur) cs
    else if cur.isEmpty then tokenizeAux p [] cs
    else cur.reverse :: tokenizeAux p [] cs

/-- The maximal runs of characters satisfying `p`, in order. -/
def tokenize (p : Char → Bool) (l : List Char) : List (List Char) :=
  tokenizeAux p [] l

/-- `str.lower()` (ASCII fragment). -/
def pyLower (l : List Char) : List Char :=
  l.map Char.toLower

/-- `str.strip()`: remove leading and trailing whitespace. -/
def pyStrip (l : List Char) : List Char :=
  ((l.dropWhile Char.isWhitespace).reverse.dropWhile Char.isWhitespace).reverse

/-- `re.findall(r'\b\w+\b', text.lower())`: the word stream of
`analyze_with_python` (line 488). -/
def pyWords (text : List Char) : List (List Char) :=
  tokenize isWordChar (pyLower text)

/-- `extract_words` (lines 882-885): `re.findall(r'\b[a-zA-Z]+\b', text)`,
the maximal word-character runs made of letters only. -/
def extract_words (text : List Char) : List (List Char) :=
  (tokenize isWordChar text).filter (fun t => t.all Char.isAlpha)

/-- `str.split(sep)` for a one-character separator: empty segments kept. -/
def py_split (sep : Char) : List Char → List (List Char)
  | [] => [[]]
  | c :: rest =>
    if c == sep then [] :: py_split sep rest
    else consHead c (py_split sep rest)

/-- `text.split('\n\n')`: split on non-overlapping occurrences of two
consecutive newlines (line 480). -/
def split_nn : List Char → List (List Char)
  | [] => [[]]
  | '\n' :: '\n' :: rest => [] :: split_nn rest
  | c :: rest => consHead c (split_nn rest)

/-- `re.split(r'[.!?]+', text)`: split on maximal runs of sentence
punctuation (line 484). -/
def split_sent : List Char → List (List Char)
  | [] => [[]]
  | c :: rest =>
    if isSentChar c then
      match rest with
      | c' :: _ => if isSentChar c' then split_sent rest else [] :: split_sent rest
      | [] => [] :: split_sent rest
    else consHead c (split_sent rest)

/-- Keep the first occurrence of each element, dropping later duplicates:
the key order of a CPython dict / `Counter` built from the list. -/
def dedupFirst {α : Type} [DecidableEq α] : List α → List α
  | [] => []
  | x :: xs => x :: (dedupFirst xs).filter (fun y => y ≠ x)

/-- `collections.Counter(ws)` as an association list in first-occurrence
key order. -/
def Counter (ws : List (List Char)) : List (List Char × Nat) :=
  (dedupFirst ws).map fun w => (w, ws.count w)

/-- `counter.get(w, 0)`. -/
def counterGet (tbl : List (List Char × Nat)) (w : List Char) : Nat :=
  (List.lookup w tbl).getD 0

/-- Index of the first occurrence of `w` in `l` (`l.length` if absent). -/
def firstIdx {α : Type} [DecidableEq α] (w : α) : List α → Nat
  | [] => 0
  | x :: xs => if x = w then 0 else firstIdx w xs + 1

/-- The total order `heapq.nlargest` sorts `Counter(ws).items()` by:
larger count first; on equal counts, the word seen first in `ws` first
(the decoration index of an entry of `Counter ws` is its position in the
table, which is the first-occurrence order of its word in `ws`). -/
def keyRel (ws : List (List Char)) (a b : List Char × Nat) : Prop :=
  b.2 < a.2 ∨ (a.2 = b.2 ∧ firstIdx a.1 ws ≤ firstIdx b.1 ws)

instance keyRelDecidable (ws : List (List Char)) : DecidableRel (keyRel ws) :=
  fun a b => by unfold keyRel; infer_instance

/-- `Counter(ws).most_common(n)`. -/
def most_common (ws : List (List Char)) (n : Int) : List (List Char × Nat) :=
  ((Counter ws).insertionSort (keyRel ws)).take n.toNat

/-- The order `list.sort(key=len, reverse=True)` sorts by. -/
def lenRel (a b : List Char) : Prop :=
  b.length ≤ a.length

instance lenRelDecidable : DecidableRel lenRel :=
  fun a b => by unfold lenRel; infer_instance

/-- `text[i:i+size]` slices of the loop `for i in range(0, len(text), size)`
(line 896), for a step `size ≥ 1`. -/
def chunksOf (size : Nat) : List Char → List (List Char)
  | [] => []
  | c :: cs => (c :: cs.take (size - 1)) :: chunksOf size (cs.drop (size - 1))
termination_by l => l.length
decreasing_by simp only [List.length_drop, List.length_cons]; omega

/-- Python `l[:k]` (clamped; counts from the right when `k < 0`). -/
def pyTake {α : Type} (l : List α) (k : Int) : List α :=
  if k < 0 then l.take ((l.length : Int) + k).toNat else l.take k.toNat

/-- Python `l[k:]` (clamped; counts from the right when `k < 0`). -/
def pyDrop {α : Type} (l : List α) (k : Int) : List α :=
  if k < 0 then l.drop ((l.length : Int) + k).toNat else l.drop k.toNat

/-- Body of `split_text_into_chunks` for non-empty text and a nonzero
chunk count (lines 892-905): slice into pieces of size
`max(1, length // num_chunks)`, then merge any overflow into one final
chunk so at most `num_chunks` pieces remain. -/
def splitBody (text : List Char) (num_chunks : Int) : List (List Char) :=
  let chunk_size : Int := max 1 ((text.length : Int).fdiv num_chunks)
  let chunks := chunksOf chunk_size.toNat text
  if (chunks.length : Int) > num_chunks then
    pyTake chunks (num_chunks - 1) ++ [(pyDrop chunks (num_chunks - 1)).flatten]
  else chunks

/-- `split_text_into_chunks` (lines 887-905). `none` models the
`ZeroDivisionError` raised by `length // num_chunks` when
`num_chunks == 0` and the text is non-empty. -/
def split_text_into_chunks (text : List Char) (num_chunks : Int) :
    Option (List (List Char)) :=
  if text.isEmpty then some []
  else if num_chunks = 0 then none
  else some (splitBody text num_chunks)

/-- The statistics report assembled by `analyze_with_python`. -/
structure Stats where
  words : Nat
  characters : Nat
  characters_no_spaces : Nat
  sentences : Nat
  paragraphs : Nat
  unique_words : Nat
  avg_word_length : ℚ
  reading_time_seconds : Nat
  top_words : List (List Char × Nat)
  longest_words : List (List Char)
deriving DecidableEq

/-- The zero-initialized report dict (lines 459-470). -/
def zeroStats : Stats :=
  { words := 0, characters := 0, characters_no_spaces := 0, sentences := 0
    paragraphs := 0, unique_words := 0, avg_word_length := 0
    reading_time_seconds := 0, top_words := [], longest_words := [] }

/-- `analyze_with_python` (lines 454-509). The source zero-initializes
the dict and fills the word-dependent fields inside one `if words:`
block; here that guard is repeated per field, which is equivalent.
`list(set(words))` iterates in an unspecified order; it is modelled in
first-occurrence order, and `list.sort(key=len, reverse=True)` as a sort
by `lenRel`. `int((len(words)/225)*60)` is modelled exactly over ℚ,
where it equals floor division `len(words)*60/225`. -/
def analyze_with_python (text : List Char) : Stats :=
  if text.all Char.isWhitespace then zeroStats
  else
    let words := pyWords text
    { characters := text.length
      characters_no_spaces :=
        (text.filter (fun c => !(c == ' ' || c == '\n' || c == '\t'))).length
      paragraphs := ((split_nn text).filter (fun p => !p.all Char.isWhitespace)).length
      sentences := ((split_sent text).filter (fun s => !s.all Char.isWhitespace)).length
      words := words.length
      unique_words := if words.isEmpty then 0 else (dedupFirst words).length
      top_words := if words.isEmpty then [] else most_common words 5
      longest_words :=
        if words.isEmpty then []
        else (List.insertionSort lenRel (dedupFirst words)).take 5
      avg_word_length :=
        if words.isEmpty then 0
        else ((words.map List.length).sum : ℚ) / (words.length : ℚ)
      reading_time_seconds := if words.isEmpty then 0 else words.length * 60 / 225 }

/-- One row of the keyword table: keyword, count, density percentage
(`update_keyword_analysis`, lines 807-871; the rendered status string is
a function of the density and is not modelled). -/
def update_keyword_analysis (text keywords_text : List Char) :
    List (List Char × Nat × ℚ) :=
  if text.all Char.isWhitespace || keywords_text.all Char.isWhitespace then []
  else
    let keywords := (py_split ',' keywords_text).map fun k => pyLower (pyStrip k)
    let words := extract_words (pyLower text)
    let total_words := words.length
    let word_counts := Counter words
    keywords.map fun keyword =>
      let count := counterGet word_counts keyword
      let density : ℚ :=
        if 0 < total_words then (count : ℚ) / (total_words : ℚ) * 100 else 0
      (keyword, count, density)

/-- The dict returned by `generate_word_heatmap`: the frequency matrix
(rows indexed by word, columns by chunk), the vocabulary, and the number
of chunk labels (`Part 1 .. Part k`). -/
structure HeatmapData where
  matrix : List (List Nat)
  words : List (List Char)
  chunkCount : Nat
deriving DecidableEq

/-- `generate_word_heatmap` (lines 548-577). The chunk count is the
hard-coded `num_chunks=20`, which is nonzero, so the `getD []` default
on `split_text_into_chunks` is never taken. -/
def generate_word_heatmap (text : List Char) (top_n : Int) : Option HeatmapData :=
  if text.all Char.isWhitespace then none
  else
    let chunks := (split_text_into_chunks text 20).getD []
    let words := extract_words (pyLower text)
    let top_words := (most_common words top_n).map Prod.fst
    if top_words.isEmpty then none
    else some
      { matrix := top_words.map fun w =>
          chunks.map fun chunk => counterGet (Counter (extract_words (pyLower chunk))) w
        words := top_words
        chunkCount := chunks.length }

/-! ### Basic lemmas about the embedded operations -/

theorem mem_dedupFirst {α : Type} [DecidableEq α] {a : α} :
    ∀ {l : List α}, a ∈ dedupFirst l ↔ a ∈ l := by
  intro l
  induction l with
  | nil => simp [dedupFirst]
  | cons x xs ih =>
    simp only [dedupFirst, List.mem_cons, List.mem_filter, decide_eq_true_eq]
    constructor
    · rintro (rfl | ⟨h, _⟩)
      · exact .inl rfl
      · exact .inr (ih.mp h)
    · rintro (rfl | h)
      · exact .inl rfl
      · by_cases hax : a = x
        · exact .inl hax
        · exact .inr ⟨ih.mpr h, hax⟩

theorem nodup_dedupFirst {α : Type} [DecidableEq α] :
    ∀ (l : List α), (dedupFirst l).Nodup := by
  intro l
  induction l with
  | nil => simp [dedupFirst]
  | cons x xs ih =>
    simp only [dedupFirst, List.nodup_cons]
    refine ⟨fun hx => ?_, ih.filter _⟩
    simp only [List.mem_filter, decide_eq_true_eq] at hx
    exact hx.2 rfl

theorem dedupFirst_perm_dedup {α : Type} [DecidableEq α] (l : List α) :
    List.Perm (dedupFirst l) l.dedup :=
  (List.perm_ext_iff_of_nodup (nodup_dedupFirst l) l.nodup_dedup).mpr
    (by simp [mem_dedupFirst, List.mem_dedup])

/-- `List.count` does not depend on which (lawful) `BEq` instance is used:
the default one on `List Char` agrees with the one Mathlib derives from
decidable equality. -/
theorem count_instance_eq (w : List Char) (ws : List (List Char)) :
    ws.count w = @List.count (List Char) instBEqOfDecidableEq w ws := by
  induction ws with
  | nil => rfl
  | cons x xs ih =>
    rw [List.count_cons, @List.count_cons (List Char) instBEqOfDecidableEq, ih]
    by_cases h : w = x
    · subst h
      simp [instBEqOfDecidableEq]
    · have h1 : (x == w) = false := by simpa using Ne.symm h
      have h2 : (@BEq.beq _ instBEqOfDecidableEq x w) = false := by
        simp [instBEqOfDecidableEq]
        exact Ne.symm h
      rw [h1, h2]

/-- The values of a `Counter` sum to the length of the counted list:
each token contributes to exactly one entry. -/
theorem sum_Counter (ws : List (List Char)) :
    ((Counter ws).map Prod.snd).sum = ws.length := by
  unfold Counter
  rw [List.map_map]
  show ((dedupFirst ws).map fun w => ws.count w).sum = ws.length
  have hperm : List.Perm ((dedupFirst ws).map fun w => ws.count w)
      (ws.dedup.map fun w => ws.count w) :=
    (dedupFirst_perm_dedup ws).map _
  rw [hperm.sum_eq]
  have hc : (ws.dedup.map fun w => ws.count w) =
      ws.dedup.map fun w => @List.count (List Char) instBEqOfDecidableEq w ws :=
    List.map_congr_left fun a _ => count_instance_eq a ws
  rw [hc]
  exact List.sum_map_count_dedup_eq_length ws

theorem tokenizeAux_eq_nil (p : Char → Bool) :
    ∀ (l : List Char), (∀ c ∈ l, p c = false) → tokenizeAux p [] l = [] := by
  intro l
  induction l with
  | nil => simp [tokenizeAux]
  | cons c cs ih =>
    intro h
    simp only [tokenizeAux, h c (by simp), List.isEmpty_nil]
    exact ih fun d hd => h d (by simp [hd])

theorem pyWords_eq_nil_of_whitespace {text : List Char}
    (h : text.all Char.isWhitespace = true) : pyWords text = [] := by
  unfold pyWords tokenize pyLower
  apply tokenizeAux_eq_nil
  intro c hc
  obtain ⟨d, hd, rfl⟩ := List.mem_map.mp hc
  rw [List.all_eq_true] at h
  have hw := h d hd
  have hd4 : ((d = ' ' ∨ d = '\t') ∨ d = '\x0d') ∨ d = '\n' := by
    simpa [Char.isWhitespace] using hw
  rcases hd4 with ((rfl | rfl) | rfl) | rfl <;> decide

theorem lookup_map_pair (f : List Char → Nat) (w : List Char) :
    ∀ (l : List (List Char)),
      List.lookup w (l.map fun x => (x, f x)) = if w ∈ l then some (f w) else none := by
  intro l
  induction l with
  | nil => simp [List.lookup]
  | cons x xs ih =>
    simp only [List.map_cons, List.lookup]
    by_cases hwx : w = x
    · subst hwx
      simp
    · have hbeq : (w == x) = false := by simpa using hwx
      simp [hbeq, ih, List.mem_cons, hwx]

/-- `Counter(ws).get(w, 0)` is the number of occurrences of `w` in `ws`. -/
theorem counterGet_eq_count (ws : List (List Char)) (w : List Char) :
    counterGet (Counter ws) w = ws.count w := by
  unfold counterGet Counter
  rw [lookup_map_pair]
  by_cases h : w ∈ dedupFirst ws
  · simp [h]
  · rw [if_neg h, Option.getD_none]
    exact (List.count_eq_zero.mpr fun hw => h (mem_dedupFirst.mpr hw)).symm

theorem firstIdx_inj {α : Type} [DecidableEq α] :
    ∀ {l : List α} {a b : α}, a ∈ l → b ∈ l →
      firstIdx a l = firstIdx b l → a = b := by
  intro l
  induction l with
  | nil => simp
  | cons x xs ih =>
    intro a b ha hb heq
    simp only [firstIdx] at heq
    by_cases hxa : x = a <;> by_cases hxb : x = b
    · exact hxa.symm.trans hxb
    · rw [if_pos hxa, if_neg hxb] at heq
      exact absurd heq (by omega)
    · rw [if_neg hxa, if_pos hxb] at heq
      exact absurd heq (by omega)
    · rw [if_neg hxa, if_neg hxb] at heq
      have ha' : a ∈ xs := by
        rcases List.mem_cons.mp ha with rfl | h
        · exact absurd rfl hxa
        · exact h
      have hb' : b ∈ xs := by
        rcases List.mem_cons.mp hb with rfl | h
        · exact absurd rfl hxb
        · exact h
      exact ih ha' hb' (by omega)

theorem countP_not_add_countP (p : Char → Bool) (l : List Char) :
    l.countP (fun c => !p c) + l.countP p = l.length := by
  induction l with
  | nil => simp
  | cons c cs ih =>
    simp only [List.countP_cons, List.length_cons]
    cases hp : p c <;> simp [hp] <;> omega

/-! ### The claims -/

/-- C1: for every text, the sum of the counts in the frequency table
built from the text's word stream (`Counter(words)`, line 493) equals the
report's total word count (`len(words)`, line 489): every token is
counted exactly once. -/
theorem C1_frequency_sum (text : List Char) :
    ((Counter (pyWords text)).map Prod.snd).sum = (analyze_with_python text).words := by
  unfold analyze_with_python
  by_cases h : text.all Char.isWhitespace
  · rw [if_pos h, pyWords_eq_nil_of_whitespace h]
    rfl
  · rw [if_neg h]
    exact sum_Counter (pyWords text)

/-- C7: for every empty or whitespace-only input (`not text.strip()`,
line 472), `analyze_with_python` returns the fully zeroed report: every
numeric field is `0` and both collections are present but empty. -/
theorem C7_empty_input (text : List Char) (h : text.all Char.isWhitespace = true) :
    analyze_with_python text = zeroStats := by
  unfold analyze_with_python
  rw [if_pos h]

theorem C7_empty_input_witness :
    ([' ', '\t', '\n'].all Char.isWhitespace = true) ∧
      analyze_with_python [' ', '\t', '\n'] = zeroStats :=
  ⟨by decide, C7_empty_input [' ', '\t', '\n'] (by decide)⟩

/-- C8 counterexample: on the text `"a\rb"` the code's
`characters_no_spaces` is `3` (only `' '`, `'\n'`, `'\t'` are removed,
line 477), but the claimed "length minus all whitespace code points"
is `2`, since `'\r'` is a whitespace code point. -/
theorem C8_counterexample :
    (analyze_with_python ['a', '\x0d', 'b']).characters_no_spaces ≠
      ['a', '\x0d', 'b'].length - ['a', '\x0d', 'b'].countP Char.isWhitespace := by
  decide

/-- C8 amended: for every text that is not whitespace-only, the report's
`characters_no_spaces` equals the total length minus the number of
space, newline and tab characters only; other whitespace code points
(such as carriage return) are not excluded. -/
theorem C8_chars_no_spaces (text : List Char)
    (h : text.all Char.isWhitespace = false) :
    (analyze_with_python text).characters_no_spaces =
      text.length - text.countP (fun c => c == ' ' || c == '\n' || c == '\t') := by
  unfold analyze_with_python
  rw [if_neg (by simp [h])]
  show (text.filter fun c => !(c == ' ' || c == '\n' || c == '\t')).length = _
  rw [← List.countP_eq_length_filter]
  have := countP_not_add_countP (fun c => c == ' ' || c == '\n' || c == '\t') text
  omega

theorem C8_chars_no_spaces_witness :
    (['a', '\x0d', 'b'].all Char.isWhitespace = false) ∧
      (analyze_with_python ['a', '\x0d', 'b']).characters_no_spaces =
        ['a', '\x0d', 'b'].length -
          ['a', '\x0d', 'b'].countP (fun c => c == ' ' || c == '\n' || c == '\t') :=
  ⟨by decide, C8_chars_no_spaces ['a', '\x0d', 'b'] (by decide)⟩

/-- C3 counterexample: on the text `"a1 a1"` with keyword `"a1"`, the
report's word stream (`\b\w+\b`) is `["a1", "a1"]`, so the claimed count
is `2`; but `update_keyword_analysis` counts against its own
alphabetic-only stream (`extract_words`, `\b[a-zA-Z]+\b`), which is
empty, so the code reports count `0` (and density `0`, not
`100·2/2 = 100`). -/
theorem C3_counterexample :
    (update_keyword_analysis ['a', '1', ' ', 'a', '1'] ['a', '1']).map
        (fun r => r.2.1) ≠
      [(pyWords ['a', '1', ' ', 'a', '1']).count ['a', '1']] := by
  decide

/-- C3 amended: for every text and keyword string passing the non-empty
guards, each keyword row reports the number of occurrences of the
canonical keyword as a whole token of the alphabetic-only word stream
`extract_words(text.lower())`, and a density of `100·count/total` where
`total` is the length of that same stream (not the report's word count,
which is computed from the `\w`-based stream), with density `0` when the
stream is empty. -/
theorem C3_keyword_density (text keywords_text : List Char)
    (h1 : text.all Char.isWhitespace = false)
    (h2 : keywords_text.all Char.isWhitespace = false) :
    update_keyword_analysis text keywords_text =
      ((py_split ',' keywords_text).map fun k => pyLower (pyStrip k)).map
        fun keyword =>
          (keyword, (extract_words (pyLower text)).count keyword,
            if 0 < (extract_words (pyLower text)).length then
              100 * ((extract_words (pyLower text)).count keyword : ℚ) /
                ((extract_words (pyLower text)).length : ℚ)
            else 0) := by
  unfold update_keyword_analysis
  rw [if_neg (by simp [h1, h2])]
  refine List.map_congr_left fun keyword _ => ?_
  dsimp only
  rw [counterGet_eq_count]
  by_cases ht : 0 < (extract_words (pyLower text)).length
  · rw [if_pos ht, if_pos ht]
    simp only [Prod.mk.injEq, true_and]
    ring
  · rw [if_neg ht, if_neg ht]

theorem C3_keyword_density_witness :
    (['c', 'a', 't', ' ', 'c', 'a', 't', ' ', 'd', 'o', 'g'].all Char.isWhitespace = false) ∧
      (['c', 'a', 't', ',', ' ', 'b', 'i', 'r', 'd'].all Char.isWhitespace = false) ∧
      update_keyword_analysis ['c', 'a', 't', ' ', 'c', 'a', 't', ' ', 'd', 'o', 'g']
          ['c', 'a', 't', ',', ' ', 'b', 'i', 'r', 'd'] =
        ((py_split ',' ['c', 'a', 't', ',', ' ', 'b', 'i', 'r', 'd']).map
            fun k => pyLower (pyStrip k)).map
          fun keyword =>
            (keyword,
              (extract_words (pyLower ['c', 'a', 't', ' ', 'c', 'a', 't', ' ', 'd', 'o', 'g'])).count keyword,
              if 0 < (extract_words (pyLower ['c', 'a', 't', ' ', 'c', 'a', 't', ' ', 'd', 'o', 'g'])).length then
                100 * ((extract_words (pyLower ['c', 'a', 't', ' ', 'c', 'a', 't', ' ', 'd', 'o', 'g'])).count keyword : ℚ) /
                  ((extract_words (pyLower ['c', 'a', 't', ' ', 'c', 'a', 't', ' ', 'd', 'o', 'g'])).length : ℚ)
              else 0) :=
  ⟨by decide, by decide, C3_keyword_density _ _ (by decide) (by decide)⟩

/-- C9 counterexample: the keyword string `"cat,,"` yields three rows,
with the two entries that are empty after trimming kept (the code never
drops them, line 817), not one row as the claim's "empty entries are
dropped" would require. -/
theorem C9_counterexample :
    (update_keyword_analysis ['c', 'a', 't'] ['c', 'a', 't', ',', ',']).map
        Prod.fst ≠ [['c', 'a', 't']] := by
  decide

/-- C9 amended: for every text and keyword string passing the non-empty
guards, the keyword list analyzed is obtained by splitting on commas and
trimming and lowercasing each entry, with duplicates preserved as
separate rows in caller-supplied order; entries that are empty after
trimming are kept as rows, not dropped. -/
theorem C9_keyword_parsing (text keywords_text : List Char)
    (h1 : text.all Char.isWhitespace = false)
    (h2 : keywords_text.all Char.isWhitespace = false) :
    (update_keyword_analysis text keywords_text).map Prod.fst =
      (py_split ',' keywords_text).map fun k => pyLower (pyStrip k) := by
  unfold update_keyword_analysis
  rw [if_neg (by simp [h1, h2])]
  simp [List.map_map, Function.comp]

theorem C9_keyword_parsing_witness :
    (['c', 'a', 't'].all Char.isWhitespace = false) ∧
      ((['B', ' ', ',', 'b', ',', ',', 'b'] : List Char).all Char.isWhitespace = false) ∧
      (update_keyword_analysis ['c', 'a', 't'] ['B', ' ', ',', 'b', ',', ',', 'b']).map Prod.fst =
        (py_split ',' ['B', ' ', ',', 'b', ',', ',', 'b']).map fun k => pyLower (pyStrip k) :=
  ⟨by decide, by decide, C9_keyword_parsing _ _ (by decide) (by decide)⟩

instance keyRelIsTotal (ws : List (List Char)) :
    IsTotal (List Char × Nat) (keyRel ws) := by
  constructor
  intro a b
  unfold keyRel
  rcases Nat.lt_trichotomy a.2 b.2 with h | h | h
  · exact .inr (.inl h)
  · rcases Nat.le_total (firstIdx a.1 ws) (firstIdx b.1 ws) with hf | hf
    · exact .inl (.inr ⟨h, hf⟩)
    · exact .inr (.inr ⟨h.symm, hf⟩)
  · exact .inl (.inl h)

instance keyRelIsTrans (ws : List (List Char)) :
    IsTrans (List Char × Nat) (keyRel ws) := by
  constructor
  intro a b c hab hbc
  unfold keyRel at hab hbc ⊢
  rcases hab with h1 | ⟨h1, h1'⟩ <;> rcases hbc with h2 | ⟨h2, h2'⟩
  · exact .inl (by omega)
  · exact .inl (by omega)
  · exact .inl (by omega)
  · exact .inr ⟨by omega, le_trans h1' h2'⟩

theorem mem_insertionSort_Counter {ws : List (List Char)} {p : List Char × Nat}
    (hp : p ∈ (Counter ws).insertionSort (keyRel ws)) :
    p.1 ∈ ws ∧ p.2 = ws.count p.1 := by
  have h1 : p ∈ Counter ws := (List.perm_insertionSort _ _).mem_iff.mp hp
  unfold Counter at h1
  obtain ⟨w, hw, rfl⟩ := List.mem_map.mp h1
  exact ⟨mem_dedupFirst.mp hw, rfl⟩

/-- C5: for every text and every `n`, `most_common(n)` (line 495)
returns at most `n` pairs, each pairing a word of the stream with its
exact occurrence count, ordered by count descending with ties between
equal counts broken by the first-occurrence position of the word in the
word stream — never alphabetically. -/
theorem C5_top_n_order (text : List Char) (n : Int) :
    (most_common (pyWords text) n).length ≤ n.toNat ∧
    (∀ p ∈ most_common (pyWords text) n,
      p.1 ∈ pyWords text ∧ p.2 = (pyWords text).count p.1) ∧
    (most_common (pyWords text) n).Pairwise (fun a b =>
      b.2 < a.2 ∨ (a.2 = b.2 ∧
        firstIdx a.1 (pyWords text) < firstIdx b.1 (pyWords text))) := by
  refine ⟨List.length_take_le _ _, ?_, ?_⟩
  · intro p hp
    exact mem_insertionSort_Counter (List.mem_of_mem_take hp)
  · have hsorted : ((Counter (pyWords text)).insertionSort
        (keyRel (pyWords text))).Pairwise (keyRel (pyWords text)) :=
      List.sorted_insertionSort (keyRel (pyWords text)) (Counter (pyWords text))
    have hnodup : ((Counter (pyWords text)).insertionSort
        (keyRel (pyWords text))).Pairwise
          (fun a b : List Char × Nat => a.1 ≠ b.1) := by
      have hmapperm : List.Perm
          (((Counter (pyWords text)).insertionSort (keyRel (pyWords text))).map Prod.fst)
          ((Counter (pyWords text)).map Prod.fst) :=
        (List.perm_insertionSort _ _).map _
      have hmapnodup : (((Counter (pyWords text)).insertionSort
          (keyRel (pyWords text))).map Prod.fst).Nodup := by
        refine hmapperm.nodup_iff.mpr ?_
        unfold Counter
        rw [List.map_map]
        show (List.map (fun w => w) (dedupFirst (pyWords text))).Nodup
        rw [List.map_id']
        exact nodup_dedupFirst _
      exact List.pairwise_map.mp hmapnodup
    have hcomb := hsorted.and hnodup
    have hstrict : ((Counter (pyWords text)).insertionSort
        (keyRel (pyWords text))).Pairwise (fun a b : List Char × Nat =>
          b.2 < a.2 ∨ (a.2 = b.2 ∧
            firstIdx a.1 (pyWords text) < firstIdx b.1 (pyWords text))) := by
      refine hcomb.imp_of_mem ?_
      intro a b ha hb hr
      rcases hr.1 with h | ⟨heq, hle⟩
      · exact .inl h
      · refine .inr ⟨heq, lt_of_le_of_ne hle fun hidx => hr.2 ?_⟩
        exact firstIdx_inj (mem_insertionSort_Counter ha).1
          (mem_insertionSort_Counter hb).1 hidx
    exact hstrict.sublist (List.take_sublist _ _)

theorem chunksOf_flatten (s : Nat) (l : List Char) : (chunksOf s l).flatten = l := by
  suffices h : ∀ (n : Nat) (l : List Char), l.length ≤ n → (chunksOf s l).flatten = l from
    h l.length l le_rfl
  intro n
  induction n with
  | zero =>
    intro l hl
    rw [List.length_eq_zero.mp (Nat.le_zero.mp hl)]
    simp [chunksOf]
  | succ m ih =>
    intro l hl
    match l with
    | [] => simp [chunksOf]
    | c :: cs =>
      rw [chunksOf, List.flatten_cons,
        ih (cs.drop (s - 1)) (by simp only [List.length_drop]
                                 simp only [List.length_cons] at hl
                                 omega)]
      simp [List.take_append_drop]

theorem chunksOf_length (s : Nat) (hs : 1 ≤ s) (l : List Char) (hl : l ≠ []) :
    (chunksOf s l).length = (l.length - 1) / s + 1 := by
  suffices h : ∀ (n : Nat) (l : List Char), l.length ≤ n → l ≠ [] →
      (chunksOf s l).length = (l.length - 1) / s + 1 from h l.length l le_rfl hl
  intro n
  induction n with
  | zero =>
    intro l hl hne
    exact absurd (List.length_eq_zero.mp (Nat.le_zero.mp hl)) hne
  | succ m ih =>
    intro l hl hne
    match l with
    | c :: cs =>
      rw [chunksOf, List.length_cons]
      by_cases hrest : cs.drop (s - 1) = []
      · have hcs : cs.length ≤ s - 1 := by
          have hdl := congrArg List.length hrest
          simp only [List.length_drop, List.length_nil] at hdl
          omega
        rw [hrest]
        simp only [chunksOf, List.length_nil, List.length_cons, Nat.zero_add,
          Nat.add_sub_cancel]
        have hdiv : cs.length / s = 0 := Nat.div_eq_of_lt (by omega)
        omega
      · have hpos : 0 < (cs.drop (s - 1)).length := List.length_pos.mpr hrest
        have hlen : (cs.drop (s - 1)).length ≤ m := by
          simp only [List.length_drop]
          simp only [List.length_cons] at hl
          omega
        rw [ih (cs.drop (s - 1)) hlen hrest]
        simp only [List.length_drop, List.length_cons] at hpos ⊢
        have hcslen : s ≤ cs.length := by omega
        have hsub : cs.length - (s - 1) - 1 = cs.length - s := by omega
        have hd : cs.length / s = (cs.length - s) / s + 1 :=
          Nat.div_eq_sub_div (by omega) hcslen
        have hln : cs.length + 1 - 1 = cs.length := by omega
        rw [hsub, hln, hd]

/-- For a chunk count `n ≥ 1`, the Python floor division in the chunk
size computation is plain natural division. -/
theorem chunk_size_toNat (L : Nat) (n : Int) (hn : 1 ≤ n) :
    (max 1 ((L : Int).fdiv n)).toNat = max 1 (L / n.toNat) := by
  have hb : (0 : Int) ≤ n := by omega
  obtain ⟨m, rfl⟩ : ∃ m : Nat, n = (m : Int) := ⟨n.toNat, (Int.toNat_of_nonneg hb).symm⟩
  rw [Int.fdiv_eq_ediv _ hb, ← Int.natCast_div, Int.toNat_natCast,
    show (1 : Int) = ((1 : Nat) : Int) from rfl, ← Nat.cast_max]
  omega

theorem splitBody_length (text : List Char) (n : Int) (hn : 1 ≤ n)
    (ht : text ≠ []) : (splitBody text n).length = min n.toNat text.length := by
  simp only [splitBody]
  rw [chunk_size_toNat text.length n hn]
  set nn := n.toNat with hnn_def
  have hnn1 : 1 ≤ nn := by omega
  set s := max 1 (text.length / nn) with hs_def
  have hs : 1 ≤ s := le_max_left _ _
  have hL1 : 0 < text.length := List.length_pos.mpr ht
  have hc := chunksOf_length s hs text ht
  by_cases hbr : ((chunksOf s text).length : Int) > n
  · rw [if_pos hbr, List.length_append, List.length_singleton]
    rw [pyTake, if_neg (by omega : ¬n - 1 < 0), List.length_take]
    have hcnn : nn < (chunksOf s text).length := by omega
    have hnnL : nn ≤ text.length := by
      by_contra hcon
      push_neg at hcon
      have h0 : text.length / nn = 0 := Nat.div_eq_of_lt hcon
      have hs1 : s = 1 := by simp [hs_def, h0]
      have hcL : (chunksOf s text).length = text.length := by
        rw [hc, hs1, Nat.div_one]
        omega
      omega
    rw [min_eq_left (by omega : (n - 1).toNat ≤ (chunksOf s text).length),
      min_eq_left hnnL]
    omega
  · rw [if_neg hbr]
    have hcle : (chunksOf s text).length ≤ nn := by omega
    by_cases hnnL : nn ≤ text.length
    · have hdiv1 : 1 ≤ text.length / nn := (Nat.one_le_div_iff (by omega)).mpr hnnL
      have hs_eq : s = text.length / nn := by rw [hs_def]; exact max_eq_right hdiv1
      have hmul : nn * s ≤ text.length := by
        rw [hs_eq, mul_comm]
        exact Nat.div_mul_le_self text.length nn
      have hsmul : (nn - 1) * s + s = nn * s := by
        have h1 : nn - 1 + 1 = nn := by omega
        calc (nn - 1) * s + s = ((nn - 1) + 1) * s := by ring
        _ = nn * s := by rw [h1]
      have hkey : (nn - 1) * s ≤ text.length - 1 := by
        set a := (nn - 1) * s
        set b := nn * s
        omega
      have hge : nn ≤ (chunksOf s text).length := by
        rw [hc]
        have hdm : nn - 1 ≤ (text.length - 1) / s :=
          (Nat.le_div_iff_mul_le (by omega)).mpr hkey
        omega
      rw [min_eq_left hnnL]
      omega
    · push_neg at hnnL
      have h0 : text.length / nn = 0 := Nat.div_eq_of_lt hnnL
      have hs1 : s = 1 := by simp [hs_def, h0]
      have hcL : (chunksOf s text).length = text.length := by
        rw [hc, hs1, Nat.div_one]
        omega
      rw [min_eq_right (by omega : text.length ≤ nn)]
      omega

/-- C2: for every text and requested chunk count `n ≥ 1`,
`split_text_into_chunks` produces exactly `min n (len(text))` chunks —
in particular `0` chunks for empty text, and never more than `n` thanks
to the remainder merge (lines 899-903). -/
theorem C2_chunk_count (text : List Char) (n : Int) (hn : 1 ≤ n) :
    (split_text_into_chunks text n).map List.length =
      some (min n.toNat text.length) := by
  unfold split_text_into_chunks
  by_cases ht : text.isEmpty = true
  · rw [if_pos ht]
    rw [List.isEmpty_iff.mp ht]
    simp
  · rw [if_neg ht, if_neg (show ¬n = 0 by omega)]
    have hne : text ≠ [] := fun h => ht (List.isEmpty_iff.mpr h)
    rw [Option.map_some']
    exact congrArg some (splitBody_length text n hn hne)

theorem C2_chunk_count_witness :
    (1 : Int) ≤ 3 ∧
      (split_text_into_chunks ['a', 'b', 'c', 'd', 'e', 'f', 'g', 'h', 'i', 'j'] 3).map
          List.length =
        some (min (3 : Int).toNat ['a', 'b', 'c', 'd', 'e', 'f', 'g', 'h', 'i', 'j'].length) :=
  ⟨by decide, C2_chunk_count ['a', 'b', 'c', 'd', 'e', 'f', 'g', 'h', 'i', 'j'] 3 (by decide)⟩

/-- C10: for every text and chunk count `n ≥ 1`, concatenating the
chunks produced by `split_text_into_chunks` in order yields the original
text: no character is lost, duplicated or reordered, including when the
remainder is merged into the final chunk. -/
theorem C10_chunks_concat (text : List Char) (n : Int) (hn : 1 ≤ n) :
    (split_text_into_chunks text n).map List.flatten = some text := by
  unfold split_text_into_chunks
  by_cases ht : text.isEmpty = true
  · rw [if_pos ht, List.isEmpty_iff.mp ht]
    rfl
  · rw [if_neg ht, if_neg (show ¬n = 0 by omega), Option.map_some']
    refine congrArg some ?_
    simp only [splitBody]
    split
    · rw [pyTake, pyDrop, if_neg (by omega : ¬n - 1 < 0),
        if_neg (by omega : ¬n - 1 < 0), List.flatten_append, List.flatten_cons,
        List.flatten_nil, List.append_nil, ← List.flatten_append,
        List.take_append_drop]
      exact chunksOf_flatten _ _
    · exact chunksOf_flatten _ _

theorem C10_chunks_concat_witness :
    (1 : Int) ≤ 3 ∧
      (split_text_into_chunks ['a', 'b', 'c', 'd', 'e', 'f', 'g', 'h', 'i', 'j'] 3).map
          List.flatten =
        some ['a', 'b', 'c', 'd', 'e', 'f', 'g', 'h', 'i', 'j'] :=
  ⟨by decide, C10_chunks_concat ['a', 'b', 'c', 'd', 'e', 'f', 'g', 'h', 'i', 'j'] 3 (by decide)⟩

/-- C4 counterexample: a chunk count of `0` on a non-empty text is not
normalized: `length // num_chunks` (line 893) raises `ZeroDivisionError`
(modelled as `none`), so the call fails instead of returning a result. -/
theorem C4_counterexample : split_text_into_chunks ['a', 'b'] 0 = none := by
  decide

/-- C4 amended: for every text, chunking never fails for any nonzero
chunk count (negative counts included), and a non-positive heatmap top-N
makes `generate_word_heatmap` return the soft `None` rather than raise;
but a chunk count of exactly `0` on non-empty text raises
`ZeroDivisionError` instead of being normalized. -/
theorem C4_config_normalization (text : List Char) (n top_n : Int)
    (hn : n ≠ 0) (htop : top_n ≤ 0) :
    (split_text_into_chunks text n).isSome = true ∧
      generate_word_heatmap text top_n = none := by
  constructor
  · unfold split_text_into_chunks
    by_cases ht : text.isEmpty = true
    · rw [if_pos ht]
      rfl
    · rw [if_neg ht, if_neg hn]
      rfl
  · unfold generate_word_heatmap
    by_cases hws : text.all Char.isWhitespace = true
    · rw [if_pos hws]
    · rw [if_neg hws]
      have hmc : most_common (extract_words (pyLower text)) top_n = [] := by
        unfold most_common
        rw [Int.toNat_of_nonpos htop, List.take_zero]
      simp [hmc]

theorem C4_config_normalization_witness :
    ((-5 : Int) ≠ 0) ∧ ((-1 : Int) ≤ 0) ∧
      ((split_text_into_chunks ['a'] (-5)).isSome = true ∧
        generate_word_heatmap ['a'] (-1) = none) :=
  ⟨by decide, by decide, C4_config_normalization ['a'] (-5) (-1) (by decide) (by decide)⟩

/-- C6: for every text that is not whitespace-only and whose top-N
vocabulary is non-empty, the heatmap is produced and its frequency
matrix has exactly one row per global top-N word of the whole text, in
`most_common` order (count descending, first-seen tie-break, cf. C5),
and one entry per chunk in ascending chunk order; the entry for word `w`
and chunk `c` is the occurrence count of `w` in `c`'s word stream, which
is `0` when `w` is absent from that chunk — the row is never omitted. -/
theorem C6_heatmap_matrix (text : List Char) (top_n : Int)
    (h1 : text.all Char.isWhitespace = false)
    (h2 : (most_common (extract_words (pyLower text)) top_n).map Prod.fst ≠ []) :
    ∃ hm, generate_word_heatmap text top_n = some hm ∧
      hm.words = (most_common (extract_words (pyLower text)) top_n).map Prod.fst ∧
      hm.chunkCount = ((split_text_into_chunks text 20).getD []).length ∧
      hm.matrix = hm.words.map fun w =>
        ((split_text_into_chunks text 20).getD []).map fun chunk =>
          (extract_words (pyLower chunk)).count w := by
  refine ⟨⟨((most_common (extract_words (pyLower text)) top_n).map Prod.fst).map
      (fun w => ((split_text_into_chunks text 20).getD []).map
        (fun chunk => counterGet (Counter (extract_words (pyLower chunk))) w)),
    (most_common (extract_words (pyLower text)) top_n).map Prod.fst,
    ((split_text_into_chunks text 20).getD []).length⟩, ?_, rfl, rfl, ?_⟩
  · unfold generate_word_heatmap
    rw [if_neg (by simp [h1])]
    have hne : ((most_common (extract_words (pyLower text)) top_n).map Prod.fst).isEmpty
        = false := by
      rcases hl : (most_common (extract_words (pyLower text)) top_n).map Prod.fst with
        _ | ⟨a, as⟩
      · exact absurd hl h2
      · rfl
    simp [hne]
  · exact List.map_congr_left fun w _ =>
      List.map_congr_left fun chunk _ => counterGet_eq_count _ _

theorem C6_heatmap_matrix_witness :
    (['a', 'b', ' ', 'a', 'b', ' ', 'c', 'd'].all Char.isWhitespace = false) ∧
      ((most_common (extract_words (pyLower ['a', 'b', ' ', 'a', 'b', ' ', 'c', 'd'])) 15).map
          Prod.fst ≠ []) ∧
      (∃ hm, generate_word_heatmap ['a', 'b', ' ', 'a', 'b', ' ', 'c', 'd'] 15 = some hm ∧
        hm.words = (most_common (extract_words
            (pyLower ['a', 'b', ' ', 'a', 'b', ' ', 'c', 'd'])) 15).map Prod.fst ∧
        hm.chunkCount =
          ((split_text_into_chunks ['a', 'b', ' ', 'a', 'b', ' ', 'c', 'd'] 20).getD []).length ∧
        hm.matrix = hm.words.map fun w =>
          ((split_text_into_chunks ['a', 'b', ' ', 'a', 'b', ' ', 'c', 'd'] 20).getD []).map
            fun chunk => (extract_words (pyLower chunk)).count w) :=
  ⟨by decide, by decide,
    C6_heatmap_matrix ['a', 'b', ' ', 'a', 'b', ' ', 'c', 'd'] 15 (by decide) (by decide)⟩

end WD
